import Mathlib

/-!
Verification of the path-classification, path-lock and directory-copy core of
tmc-langs-rust against its specification.

Paths are modelled as lists of normal path components (Rust `Path`/`PathBuf`
after component parsing: `"src/dir/file"` is `["src", "dir", "file"]`).  The
filesystem is modelled as an association list of files (path to contents) plus
a list of existing directories, mirroring what the `std::fs` calls used by
`file_util.rs` observe and mutate.  Fallible operations return the resulting
filesystem together with an optional structured error, mirroring Rust code
that mutates the real filesystem and returns a `Result<_, FileError>`.
-/

abbrev FsPath := List String

/-- Rust `Path::starts_with`: the components of `base` are a whole-component
prefix of the components of `p`. -/
def path_starts_with (p base : FsPath) : Bool := decide (p.take base.length = base)

/-- Rust `Path::parent`: `none` for the empty path, otherwise the path with
its last component dropped. -/
def parentDir (p : FsPath) : Option FsPath := if p = [] then none else some p.dropLast

/-- Rust `Path::file_name`: the last component, if any. -/
def fileName (p : FsPath) : Option String := p.getLast?

/-- Every nonempty prefix of `p`, shortest first, ending with `p` itself. -/
def ancestorsOf (p : FsPath) : List FsPath := (List.range p.length).map (fun i => p.take (i + 1))

/-- AntStudentFilePolicy::is_student_source_file (src/plugins/java/src/ant_policy.rs):
`path.starts_with("src")`. -/
def ant_is_student_source_file (path : FsPath) : Bool := path_starts_with path ["src"]

/-- MakeStudentFilePolicy::is_student_source_file (src/plugins/make/src/policy.rs):
`path.starts_with("src")`. -/
def make_is_student_source_file (path : FsPath) : Bool := path_starts_with path ["src"]

/-- Modelled from the spec: the error taxonomy of §7 ("FileOpen, FileCreate,
FileRead, FileWrite, FileRemove, FileCopy{from,to}, DirRead, DirCreate,
DirRemove, Rename{from,to}, NoFileName, UnexpectedFile, TempFileCreation,
LockAcquisition, WriteError"); `error.rs` itself is not among the provided
sources.  `WalkDir` stands for the error converted from a `walkdir::Error`
when enumerating a source tree fails. -/
inductive FileError where
  | FileOpen (path : FsPath)
  | FileCreate (path : FsPath)
  | FileRead (path : FsPath)
  | FileWrite (path : FsPath)
  | FileRemove (path : FsPath)
  | FileCopy (fromPath toPath : FsPath)
  | DirRead (path : FsPath)
  | DirCreate (path : FsPath)
  | DirRemove (path : FsPath)
  | Rename (fromPath toPath : FsPath)
  | NoFileName (path : FsPath)
  | UnexpectedFile (path : FsPath)
  | TempFileCreation
  | LockAcquisition (path : FsPath)
  | WriteError
  | WalkDir (path : FsPath)
deriving DecidableEq, Repr

/-- A filesystem snapshot: regular files with their contents, and the set of
existing directories. -/
structure FS where
  files : List (FsPath × String)
  dirs : List FsPath
deriving DecidableEq, Repr

def FS.readFile (fs : FS) (p : FsPath) : Option String := fs.files.lookup p

def FS.isFile (fs : FS) (p : FsPath) : Bool := (fs.files.lookup p).isSome

def FS.isDir (fs : FS) (p : FsPath) : Bool := fs.dirs.contains p

def FS.existsAt (fs : FS) (p : FsPath) : Bool := fs.isFile p || fs.isDir p

/-- Well-formedness of a real filesystem snapshot: no path is both a file and
a directory, entries are rooted (nonempty paths whose parent directory
exists), nothing lives strictly below a file, and listings have no duplicate
entries. -/
def FS.WF (fs : FS) : Prop :=
  (∀ p ∈ fs.files.map Prod.fst,
      fs.dirs.contains p = false ∧ p ≠ [] ∧ (p.dropLast = [] ∨ fs.dirs.contains p.dropLast = true)) ∧
  (∀ d ∈ fs.dirs, d ≠ [] ∧ (d.dropLast = [] ∨ fs.dirs.contains d.dropLast = true)) ∧
  (∀ p ∈ fs.files.map Prod.fst, ∀ q ∈ fs.files.map Prod.fst ++ fs.dirs,
      q ≠ p → path_starts_with q p = false) ∧
  (fs.files.map Prod.fst).Nodup ∧ fs.dirs.Nodup

instance (fs : FS) : Decidable fs.WF := by unfold FS.WF; infer_instance

/-- One directory-creation step per missing ancestor: `std::fs::create_dir_all`
walks down the ancestor chain, succeeding on directories that already exist
and failing when an existing regular file blocks the chain. -/
def FS.mkdirChain : FS → List FsPath → FsPath → FS × Option FileError
  | fs, [], _ => (fs, none)
  | fs, a :: rest, orig =>
    if fs.isFile a then (fs, some (FileError.DirCreate orig))
    else FS.mkdirChain { fs with dirs := a :: fs.dirs } rest orig

/-- Model of `file_util::create_dir_all` (a thin wrapper over
`std::fs::create_dir_all` that tags failures as `DirCreate`): create `p` and
every missing ancestor; the empty path is a successful no-op, as in `std`. -/
def FS.create_dir_all (fs : FS) (p : FsPath) : FS × Option FileError :=
  FS.mkdirChain fs (ancestorsOf p) p

/-- Overwrite (or create) the regular file at `p` with `contents`. -/
def FS.writeFileAt (fs : FS) (p : FsPath) (contents : String) : FS :=
  { fs with files := (p, contents) :: fs.files.filter (fun e => decide (e.1 ≠ p)) }

/-- Model of `std::fs::copy src tgt`: read the regular file at `src` and write
its bytes to `tgt`, overwriting an existing file there; `none` (an OS error)
when `src` is not a readable regular file, when `tgt` is an existing
directory, or when `tgt`'s parent directory does not exist. -/
def FS.fs_copy (fs : FS) (src tgt : FsPath) : Option FS :=
  match fs.readFile src with
  | none => none
  | some contents =>
    if fs.isDir tgt then none
    else if tgt = [] then none
    else if tgt.dropLast = [] || fs.isDir tgt.dropLast then some (fs.writeFileAt tgt contents)
    else none

/-- The entries `WalkDir::new source` yields on the modelled snapshot: the
source directory itself and every existing entry below it.  The spec fixes
traversal order as immaterial; the model lists directories first, then files. -/
def walkEntries (fs : FS) (source : FsPath) : List FsPath :=
  fs.dirs.filter (fun d => path_starts_with d source)
    ++ (fs.files.map Prod.fst).filter (fun p => path_starts_with p source)

/-- The per-entry loop of the directory branch of `copy`
(src/tmc-langs-util/src/file_util.rs): for each walked entry, strip the
source's parent `pre`, rebase under `target`, create the directory (for a
directory entry) or create the parent chain and copy the file (for a file
entry); the first failure is returned, as with the `?` operator. -/
def copyWalk : FS → List FsPath → FsPath → FsPath → FS × Option FileError
  | fs, [], _, _ => (fs, none)
  | fs, e :: rest, pre, target =>
    let tgt := target ++ e.drop pre.length
    if fs.isDir e then
      match fs.create_dir_all tgt with
      | (fs2, some err) => (fs2, some err)
      | (fs2, none) => copyWalk fs2 rest pre target
    else
      match (match parentDir tgt with
             | some par => fs.create_dir_all par
             | none => (fs, none)) with
      | (fs1, some err) => (fs1, some err)
      | (fs1, none) =>
        match fs1.fs_copy e tgt with
        | none => (fs1, some (FileError.FileCopy e tgt))
        | some fs2 => copyWalk fs2 rest pre target

/-- Model of `file_util::copy` (src/tmc-langs-util/src/file_util.rs, lines
201 to 268).  Returns the filesystem as left behind together with the
`FileError`, if any, exactly following the source's branch structure:
file into existing directory, file to path (creating missing parents first,
skipped when the parent already exists), and the recursive directory walk,
with `UnexpectedFile` when a directory would overwrite an existing file and a
walk error when the source does not exist. -/
def copy (fs : FS) (source target : FsPath) : FS × Option FileError :=
  if fs.isFile source then
    if fs.isDir target then
      match fileName source with
      | none => (fs, some (FileError.NoFileName source))
      | some name =>
        match fs.fs_copy source (target ++ [name]) with
        | none => (fs, some (FileError.FileCopy source target))
        | some fs2 => (fs2, none)
    else
      match (match parentDir target with
             | some par => if fs.existsAt par then (fs, none) else fs.create_dir_all par
             | none => (fs, none)) with
      | (fs1, some err) => (fs1, some err)
      | (fs1, none) =>
        match fs1.fs_copy source target with
        | none => (fs1, some (FileError.FileCopy source target))
        | some fs2 => (fs2, none)
  else
    if fs.isFile target then (fs, some (FileError.UnexpectedFile target))
    else if !(fs.isDir source) then (fs, some (FileError.WalkDir source))
    else copyWalk fs (walkEntries fs source) source.dropLast target

/-- Events of one `create_file_lock` call, in the order the source performs
them. -/
inductive LockEvent where
  | openExisting
  | acquireExistingLock
  | createFile
  | lockNewFile
deriving DecidableEq, Repr

/-- How one `create_file_lock` call ends: a handle on the new file, a typed
`FileError` returned to the caller, or a process-terminating panic. -/
inductive LockOutcome where
  | ok
  | typedError
  | panicked
deriving DecidableEq, Repr

/-- Model of `file_util::create_file_lock` (src/tmc-langs-util/src/file_util.rs,
lines 117 to 128), abstracting the environment by three booleans: whether
`open_file` finds an existing file at the path, whether `FdLock::lock` on that
existing file succeeds, and whether `create_file` succeeds.  The source calls
`lock.lock().expect(..)` on the existing file, so a failed lock acquisition
panics; a failed `create_file` propagates as a typed error; a failed open is
treated as the file being absent. -/
def create_file_lock_run (existsAtPath lockOk createOk : Bool) : List LockEvent × LockOutcome :=
  if existsAtPath then
    if lockOk then
      if createOk then
        ([LockEvent.openExisting, LockEvent.acquireExistingLock,
          LockEvent.createFile, LockEvent.lockNewFile], LockOutcome.ok)
      else ([LockEvent.openExisting, LockEvent.acquireExistingLock], LockOutcome.typedError)
    else ([LockEvent.openExisting], LockOutcome.panicked)
  else
    if createOk then ([LockEvent.createFile, LockEvent.lockNewFile], LockOutcome.ok)
    else ([], LockOutcome.typedError)

/-- Events of the batch-locking scope built by the `lock!` macro. -/
inductive BatchEv where
  | acquired (p : String)
  | released (p : String)
  | errorExit (p : String)
deriving DecidableEq, Repr

def BatchEv.isAcquired : BatchEv → Bool
  | BatchEv.acquired _ => true
  | _ => false

def BatchEv.isReleased : BatchEv → Bool
  | BatchEv.released _ => true
  | _ => false

/-- Modelled from the spec: the `lock!` macro (src/tmc-langs-util/src/file_util.rs,
lines 13 to 22) expands, for each path in the given order, to a `FileLock`
acquisition bound to a scope-local guard; the platform `FileLock`
implementation (lock_unix.rs / lock_windows.rs) is not among the provided
sources, so acquisition is abstracted by a success predicate `ok`, per the
spec's acquire-returns-handle-or-error contract.  The body events are the
acquisitions in order, cut short by the first failing acquisition (the `?`
early return); the second component collects the live guards in declaration
order, which Rust drops in reverse declaration order at every scope exit. -/
def lockMacroBody (paths : List String) (ok : String → Bool) : List BatchEv × List String :=
  match paths with
  | [] => ([], [])
  | p :: rest =>
    if ok p then
      let r := lockMacroBody rest ok
      (BatchEv.acquired p :: r.1, p :: r.2)
    else ([BatchEv.errorExit p], [])

/-- The full event trace of one `lock!` scope: the body, then the automatic
releases of all live guards in reverse declaration order. -/
def lockMacroRun (paths : List String) (ok : String → Bool) : List BatchEv :=
  (lockMacroBody paths ok).1 ++ ((lockMacroBody paths ok).2.reverse.map BatchEv.released)

/-- C1: both policy variants return true exactly when the first path segment
is the whole component "src"; the spec's five examples behave as stated. -/
theorem C1_is_student_source_file_first_segment :
    (∀ p : FsPath,
       (ant_is_student_source_file p = true ↔ p.head? = some "src")
       ∧ make_is_student_source_file p = ant_is_student_source_file p)
    ∧ ant_is_student_source_file ["src", "file"] = true
    ∧ ant_is_student_source_file ["src", "dir", "file"] = true
    ∧ ant_is_student_source_file ["file"] = false
    ∧ ant_is_student_source_file ["dir", "src", "file"] = false
    ∧ ant_is_student_source_file ["srca", "file"] = false
    ∧ make_is_student_source_file ["src", "file"] = true
    ∧ make_is_student_source_file ["srca", "file"] = false := by
  refine ⟨fun p => ⟨?_, rfl⟩, by decide, by decide, by decide, by decide, by decide,
    by decide, by decide⟩
  cases p with
  | nil => simp [ant_is_student_source_file, path_starts_with]
  | cons h t => simp [ant_is_student_source_file, path_starts_with]

/-- Path of the lock acquired by a batch event, if it is an acquisition. -/
def acqPath : BatchEv → Option String
  | BatchEv.acquired p => some p
  | _ => none

/-- Path of the lock released by a batch event, if it is a release. -/
def relPath : BatchEv → Option String
  | BatchEv.released p => some p
  | _ => none

theorem lockMacroBody_facts (paths : List String) (ok : String → Bool) :
    (lockMacroBody paths ok).2 = paths.takeWhile ok
    ∧ (lockMacroBody paths ok).1.filterMap acqPath = paths.takeWhile ok
    ∧ (lockMacroBody paths ok).1.filterMap relPath = []
    ∧ (lockMacroBody paths ok).1.all (fun e => !(BatchEv.isReleased e)) = true := by
  induction paths with
  | nil => simp [lockMacroBody]
  | cons p rest ih =>
    by_cases h : ok p = true
    · simpa [lockMacroBody, h, List.takeWhile_cons, acqPath, relPath, BatchEv.isReleased]
        using ih
    · simp only [Bool.not_eq_true] at h
      simp [lockMacroBody, h, List.takeWhile_cons, acqPath, relPath, BatchEv.isReleased]

theorem filterMap_map_released_rel (l : List String) :
    (l.map BatchEv.released).filterMap relPath = l := by
  induction l with
  | nil => rfl
  | cons p rest ih => simp [relPath, ih]

theorem filterMap_map_released_acq (l : List String) :
    (l.map BatchEv.released).filterMap acqPath = [] := by
  induction l with
  | nil => rfl
  | cons p rest ih => simp [acqPath, ih]

/-- C2: when a file already exists at the path, `create_file_lock` first opens
the existing file, then acquires the exclusive lock on it, and only after
that lock has been held does it create/truncate the file at the path; when it
succeeds, the full trace is open, lock the old file, create, lock the new
file, in that order. -/
theorem C2_create_file_lock_two_phase :
    ∀ lockOk createOk : Bool,
      (create_file_lock_run true lockOk createOk).1.head? = some LockEvent.openExisting
      ∧ (LockEvent.createFile ∈ (create_file_lock_run true lockOk createOk).1 →
          LockEvent.acquireExistingLock ∈ (create_file_lock_run true lockOk createOk).1
          ∧ (create_file_lock_run true lockOk createOk).1.indexOf LockEvent.acquireExistingLock
              < (create_file_lock_run true lockOk createOk).1.indexOf LockEvent.createFile)
      ∧ ((create_file_lock_run true lockOk createOk).2 = LockOutcome.ok →
          (create_file_lock_run true lockOk createOk).1 =
            [LockEvent.openExisting, LockEvent.acquireExistingLock,
             LockEvent.createFile, LockEvent.lockNewFile]) := by
  decide

/-- C7 counterexample: with a file at the path and a failing lock acquisition,
`create_file_lock` panics (the source calls `.expect(..)` on the lock result),
so the failure neither surfaces as a typed error nor lets the call succeed —
the claim that the lock acquisition never terminates the process is false. -/
theorem C7_counterexample_lock_failure_panics :
    (create_file_lock_run true false true).2 = LockOutcome.panicked
    ∧ (create_file_lock_run true false true).2 ≠ LockOutcome.typedError
    ∧ (create_file_lock_run true false true).2 ≠ LockOutcome.ok := by
  decide

/-- C7 amended: `create_file_lock` panics exactly when a file exists at the
path and the lock acquisition on it fails; in every other case it either
succeeds (create succeeds) or surfaces a typed error to the caller (create
fails); no failure is silently swallowed into a success. -/
theorem C7_create_file_lock_outcomes :
    ∀ existsAtPath lockOk createOk : Bool,
      ((create_file_lock_run existsAtPath lockOk createOk).2 = LockOutcome.panicked
        ↔ existsAtPath = true ∧ lockOk = false)
      ∧ ((create_file_lock_run existsAtPath lockOk createOk).2 = LockOutcome.typedError
        ↔ createOk = false ∧ (existsAtPath = true → lockOk = true))
      ∧ ((create_file_lock_run existsAtPath lockOk createOk).2 = LockOutcome.ok
        ↔ createOk = true ∧ (existsAtPath = true → lockOk = true)) := by
  decide

/-- C8: one `lock!` scope acquires a lock on each given path in the given
order (stopping at the first failed acquisition, which exits the scope
early), and every acquired lock is released automatically when the scope
ends, in reverse acquisition order; no release occurs inside the body of the
scope, only at its end. -/
theorem C8_lock_macro_batch :
    ∀ (paths : List String) (ok : String → Bool),
      (lockMacroRun paths ok).filterMap acqPath = paths.takeWhile ok
      ∧ (lockMacroRun paths ok).filterMap relPath = (paths.takeWhile ok).reverse
      ∧ (lockMacroBody paths ok).1.all (fun e => !(BatchEv.isReleased e)) = true
      ∧ lockMacroRun paths ok
          = (lockMacroBody paths ok).1
              ++ ((paths.takeWhile ok).reverse.map BatchEv.released) := by
  intro paths ok
  obtain ⟨h2, hacq, hrel, hbody⟩ := lockMacroBody_facts paths ok
  refine ⟨?_, ?_, hbody, ?_⟩
  · simp only [lockMacroRun, List.filterMap_append, hacq, h2, filterMap_map_released_acq]
    simp
  · simp only [lockMacroRun, List.filterMap_append, hrel, h2, filterMap_map_released_rel]
    simp
  · simp [lockMacroRun, h2]

theorem lookup_cons_ne {l : List (FsPath × String)} {k q : FsPath} {v : String} (h : q ≠ k) :
    (((k, v) :: l).lookup q) = l.lookup q := by
  simp [List.lookup, beq_eq_false_iff_ne.mpr h]

theorem contains_iff_mem {l : List FsPath} {a : FsPath} : l.contains a = true ↔ a ∈ l :=
  List.elem_iff

theorem lookup_isSome_iff {l : List (FsPath × String)} {a : FsPath} :
    (l.lookup a).isSome = true ↔ a ∈ l.map Prod.fst := by
  induction l with
  | nil => simp [List.lookup]
  | cons e rest ih =>
    obtain ⟨k, v⟩ := e
    by_cases h : a = k
    · subst h; simp [List.lookup]
    · rw [lookup_cons_ne h]
      simp [ih, h]

theorem isFile_iff_mem {fs : FS} {p : FsPath} :
    fs.isFile p = true ↔ p ∈ fs.files.map Prod.fst := lookup_isSome_iff

theorem isDir_iff_mem {fs : FS} {p : FsPath} : fs.isDir p = true ↔ p ∈ fs.dirs :=
  contains_iff_mem

theorem pws_iff {q p : FsPath} : path_starts_with q p = true ↔ p <+: q := by
  simp only [path_starts_with, decide_eq_true_eq]
  rw [List.prefix_iff_eq_take, eq_comm]

theorem mem_ancestorsOf {q p : FsPath} : q ∈ ancestorsOf p ↔ q ≠ [] ∧ q <+: p := by
  constructor
  · intro hmem
    simp only [ancestorsOf, List.mem_map, List.mem_range] at hmem
    obtain ⟨i, hi, rfl⟩ := hmem
    refine ⟨?_, List.take_prefix _ _⟩
    have hlen : (p.take (i + 1)).length = min (i + 1) p.length := List.length_take _ _
    intro hnil
    rw [hnil] at hlen
    simp at hlen
    omega
  · rintro ⟨hne, hpre⟩
    have hql : q.length ≤ p.length := hpre.length_le
    have hq1 : 1 ≤ q.length := by
      cases q with
      | nil => exact absurd rfl hne
      | cons a t => simp
    simp only [ancestorsOf, List.mem_map, List.mem_range]
    refine ⟨q.length - 1, by omega, ?_⟩
    have : q.length - 1 + 1 = q.length := by omega
    rw [this]
    exact (List.prefix_iff_eq_take.mp hpre).symm

theorem FS.WF.dir_not_file {fs : FS} (h : fs.WF) {p : FsPath} (hd : fs.isDir p = true) :
    fs.isFile p = false := by
  by_contra hc
  simp only [Bool.not_eq_false] at hc
  have := (h.1 p (isFile_iff_mem.mp hc)).1
  rw [FS.isDir] at hd
  rw [hd] at this
  exact Bool.true_eq_false.mp this

theorem FS.WF.file_not_dir {fs : FS} (h : fs.WF) {p : FsPath} (hf : fs.isFile p = true) :
    fs.isDir p = false :=
  (h.1 p (isFile_iff_mem.mp hf)).1

theorem FS.WF.file_ne_nil {fs : FS} (h : fs.WF) {p : FsPath} (hf : fs.isFile p = true) :
    p ≠ [] :=
  (h.1 p (isFile_iff_mem.mp hf)).2.1

theorem FS.WF.file_parent {fs : FS} (h : fs.WF) {p : FsPath} (hf : fs.isFile p = true) :
    p.dropLast = [] ∨ fs.isDir p.dropLast = true :=
  (h.1 p (isFile_iff_mem.mp hf)).2.2

theorem FS.WF.dir_ne_nil {fs : FS} (h : fs.WF) {d : FsPath} (hd : fs.isDir d = true) :
    d ≠ [] :=
  (h.2.1 d (isDir_iff_mem.mp hd)).1

theorem FS.WF.dir_parent {fs : FS} (h : fs.WF) {d : FsPath} (hd : fs.isDir d = true) :
    d.dropLast = [] ∨ fs.isDir d.dropLast = true :=
  (h.2.1 d (isDir_iff_mem.mp hd)).2

theorem FS.WF.nil_not_file {fs : FS} (h : fs.WF) : fs.isFile [] = false := by
  by_contra hc
  simp only [Bool.not_eq_false] at hc
  exact h.file_ne_nil hc rfl

theorem FS.WF.nil_not_dir {fs : FS} (h : fs.WF) : fs.isDir [] = false := by
  by_contra hc
  simp only [Bool.not_eq_false] at hc
  exact h.dir_ne_nil hc rfl

/-- Nothing (file or directory) exists strictly below a regular file. -/
theorem FS.WF.no_entry_under_file {fs : FS} (h : fs.WF) {p q : FsPath}
    (hf : fs.isFile p = true) (hq : fs.isFile q = true ∨ fs.isDir q = true)
    (hne : q ≠ p) : ¬(p <+: q) := by
  intro hpre
  have hqmem : q ∈ fs.files.map Prod.fst ++ fs.dirs := by
    rcases hq with hq | hq
    · exact List.mem_append.mpr (Or.inl (isFile_iff_mem.mp hq))
    · exact List.mem_append.mpr (Or.inr (isDir_iff_mem.mp hq))
  have := h.2.2.1 p (isFile_iff_mem.mp hf) q hqmem hne
  rw [pws_iff.mpr hpre] at this
  exact Bool.true_eq_false.mp this

/-- Every nonempty prefix of an existing directory is an existing directory. -/
theorem FS.WF.dirs_closed {fs : FS} (h : fs.WF) :
    ∀ n (d : FsPath), d.length ≤ n → fs.isDir d = true →
      ∀ a, a ≠ [] → a <+: d → fs.isDir a = true := by
  intro n
  induction n with
  | zero =>
    intro d hlen hd a hane hpre
    have : d = [] := List.length_eq_zero.mp (Nat.le_zero.mp hlen)
    subst this
    exact absurd hd (by rw [h.nil_not_dir]; exact Bool.false_ne_true)
  | succ n ih =>
    intro d hlen hd a hane hpre
    by_cases heq : a = d
    · subst heq; exact hd
    · have halt : a.length < d.length := by
        rcases Nat.lt_or_ge a.length d.length with hlt | hge
        · exact hlt
        · exact absurd (hpre.eq_of_length (Nat.le_antisymm hpre.length_le hge)) heq
      have hdne : d ≠ [] := by
        intro hnil
        subst hnil
        simp at halt
      have hpre' : a <+: d.dropLast := by
        rw [List.prefix_iff_eq_take] at hpre ⊢
        rw [List.dropLast_eq_take, List.take_take]
        have : a.length ⊓ (d.length - 1) = a.length := by
          rw [Nat.min_def]
          split <;> omega
        rw [this]
        exact hpre
      rcases h.dir_parent hd with hnil | hdir
      · rw [hnil] at hpre'
        exact absurd (List.prefix_nil.mp hpre') hane
      · have hlen' : d.dropLast.length ≤ n := by
          rw [List.length_dropLast]
          omega
        exact ih d.dropLast hlen' hdir a hane hpre'

theorem mkdirChain_files (fs : FS) (todo : List FsPath) (orig : FsPath) :
    (FS.mkdirChain fs todo orig).1.files = fs.files := by
  induction todo generalizing fs with
  | nil => rfl
  | cons a rest ih =>
    by_cases h : fs.isFile a = true
    · simp [FS.mkdirChain, h]
    · simp only [Bool.not_eq_true] at h
      simp only [FS.mkdirChain, h, Bool.false_eq_true, if_false]
      exact ih _

theorem mkdirChain_isFile (fs : FS) (todo : List FsPath) (orig p : FsPath) :
    (FS.mkdirChain fs todo orig).1.isFile p = fs.isFile p := by
  simp only [FS.isFile, mkdirChain_files]

theorem mkdirChain_readFile (fs : FS) (todo : List FsPath) (orig p : FsPath) :
    (FS.mkdirChain fs todo orig).1.readFile p = fs.readFile p := by
  simp only [FS.readFile, mkdirChain_files]

theorem mkdirChain_dirs_mono (fs : FS) (todo : List FsPath) (orig q : FsPath)
    (hq : fs.isDir q = true) : (FS.mkdirChain fs todo orig).1.isDir q = true := by
  induction todo generalizing fs with
  | nil => exact hq
  | cons a rest ih =>
    by_cases h : fs.isFile a = true
    · simp [FS.mkdirChain, h, hq]
    · simp only [Bool.not_eq_true] at h
      simp only [FS.mkdirChain, h, Bool.false_eq_true, if_false]
      apply ih
      show (({ fs with dirs := a :: fs.dirs } : FS)).isDir q = true
      rw [FS.isDir, contains_iff_mem]
      exact List.mem_cons_of_mem a (isDir_iff_mem.mp hq)

theorem mkdirChain_dirs_sub (fs : FS) (todo : List FsPath) (orig q : FsPath)
    (h : (FS.mkdirChain fs todo orig).1.isDir q = true) :
    fs.isDir q = true ∨ q ∈ todo := by
  induction todo generalizing fs with
  | nil => exact Or.inl h
  | cons a rest ih =>
    by_cases hf : fs.isFile a = true
    · simp only [FS.mkdirChain, hf, if_true] at h
      exact Or.inl h
    · simp only [Bool.not_eq_true] at hf
      simp only [FS.mkdirChain, hf, Bool.false_eq_true, if_false] at h
      rcases ih _ h with hdir | hmem
      · rw [FS.isDir, contains_iff_mem] at hdir
        rcases List.mem_cons.mp hdir with rfl | hmem
        · exact Or.inr (List.mem_cons_self _ _)
        · exact Or.inl (isDir_iff_mem.mpr hmem)
      · exact Or.inr (List.mem_cons_of_mem a hmem)

theorem mkdirChain_ok (fs : FS) (todo : List FsPath) (orig : FsPath)
    (h : ∀ a ∈ todo, fs.isFile a = false) :
    (FS.mkdirChain fs todo orig).2 = none
    ∧ ∀ a ∈ todo, (FS.mkdirChain fs todo orig).1.isDir a = true := by
  induction todo generalizing fs with
  | nil => exact ⟨rfl, by simp⟩
  | cons a rest ih =>
    have ha : fs.isFile a = false := h a (List.mem_cons_self _ _)
    simp only [FS.mkdirChain, ha, Bool.false_eq_true, if_false]
    set fs' : FS := { fs with dirs := a :: fs.dirs } with hfs'
    have hrest : ∀ b ∈ rest, fs'.isFile b = false := fun b hb => h b (List.mem_cons_of_mem a hb)
    have hadir : fs'.isDir a = true := by
      rw [FS.isDir, contains_iff_mem]
      exact List.mem_cons_self _ _
    obtain ⟨hok, hall⟩ := ih fs' hrest
    refine ⟨hok, ?_⟩
    intro b hb
    rcases List.mem_cons.mp hb with rfl | hbrest
    · exact mkdirChain_dirs_mono fs' rest orig b hadir
    · exact hall b hbrest

theorem create_dir_all_files (fs : FS) (p : FsPath) :
    (fs.create_dir_all p).1.files = fs.files :=
  mkdirChain_files fs (ancestorsOf p) p

theorem create_dir_all_dirs_mono (fs : FS) (p q : FsPath) (hq : fs.isDir q = true) :
    (fs.create_dir_all p).1.isDir q = true :=
  mkdirChain_dirs_mono fs (ancestorsOf p) p q hq

theorem create_dir_all_dirs_sub (fs : FS) (p q : FsPath)
    (h : (fs.create_dir_all p).1.isDir q = true) :
    fs.isDir q = true ∨ (q ≠ [] ∧ q <+: p) := by
  rcases mkdirChain_dirs_sub fs (ancestorsOf p) p q h with hd | hm
  · exact Or.inl hd
  · exact Or.inr (mem_ancestorsOf.mp hm)

theorem create_dir_all_ok (fs : FS) (p : FsPath)
    (h : ∀ a, a ≠ [] → a <+: p → fs.isFile a = false) :
    (fs.create_dir_all p).2 = none
    ∧ ∀ a, a ≠ [] → a <+: p → (fs.create_dir_all p).1.isDir a = true := by
  obtain ⟨hok, hall⟩ := mkdirChain_ok fs (ancestorsOf p) p
    (fun a ha => by
      obtain ⟨hne, hpre⟩ := mem_ancestorsOf.mp ha
      exact h a hne hpre)
  exact ⟨hok, fun a hne hpre => hall a (mem_ancestorsOf.mpr ⟨hne, hpre⟩)⟩

theorem lookup_filter_ne {l : List (FsPath × String)} {p q : FsPath} (h : q ≠ p) :
    (l.filter (fun e => decide (e.1 ≠ p))).lookup q = l.lookup q := by
  induction l with
  | nil => rfl
  | cons e rest ih =>
    obtain ⟨k, v⟩ := e
    rw [List.filter_cons]
    split
    · by_cases hqk : q = k
      · subst hqk
        simp [List.lookup]
      · rw [lookup_cons_ne hqk, lookup_cons_ne hqk, ih]
    · rename_i hcond
      have hk : k = p := by
        by_contra hco
        exact hcond (by simpa using hco)
      subst hk
      rw [ih, lookup_cons_ne h]

theorem writeFileAt_readFile_self (fs : FS) (p : FsPath) (c : String) :
    (fs.writeFileAt p c).readFile p = some c := by
  simp [FS.writeFileAt, FS.readFile, List.lookup]

theorem writeFileAt_readFile_ne (fs : FS) {p q : FsPath} (c : String) (h : q ≠ p) :
    (fs.writeFileAt p c).readFile q = fs.readFile q := by
  simp only [FS.writeFileAt, FS.readFile]
  rw [lookup_cons_ne h, lookup_filter_ne h]

theorem writeFileAt_dirs (fs : FS) (p : FsPath) (c : String) :
    (fs.writeFileAt p c).dirs = fs.dirs := rfl

theorem writeFileAt_isDir (fs : FS) (p q : FsPath) (c : String) :
    (fs.writeFileAt p c).isDir q = fs.isDir q := rfl

theorem fs_copy_some (fs : FS) {src tgt : FsPath} {c : String}
    (h1 : fs.readFile src = some c) (h2 : fs.isDir tgt = false) (h3 : tgt ≠ [])
    (h4 : tgt.dropLast = [] ∨ fs.isDir tgt.dropLast = true) :
    fs.fs_copy src tgt = some (fs.writeFileAt tgt c) := by
  have h4' : (tgt.dropLast = [] || fs.isDir tgt.dropLast) = true := by
    rcases h4 with h | h
    · simp [h]
    · simp [h]
  simp [FS.fs_copy, h1, h2, h3, h4']

/-- C4: copying a directory onto an existing file fails with `UnexpectedFile`
naming the target and leaves the filesystem — in particular the target file's
contents — completely unchanged: the error is returned before any write. -/
theorem C4_copy_dir_onto_file (fs : FS) (source target : FsPath)
    (hwf : fs.WF) (hs : fs.isDir source = true) (ht : fs.isFile target = true) :
    copy fs source target = (fs, some (FileError.UnexpectedFile target)) := by
  have hsf : fs.isFile source = false := hwf.dir_not_file hs
  simp [copy, hsf, ht]

/-- C4 witness: a concrete well-formed filesystem with directory `d` and file
`t`: `copy d t` returns `UnexpectedFile t` and the filesystem unchanged. -/
theorem C4_copy_dir_onto_file_witness :
    copy { files := [(["t"], "z")], dirs := [["d"]] } ["d"] ["t"]
      = ({ files := [(["t"], "z")], dirs := [["d"]] },
         some (FileError.UnexpectedFile ["t"])) :=
  C4_copy_dir_onto_file _ _ _ (by decide) (by decide) (by decide)

/-- C10: when the source exists neither as a file nor as a directory, `copy`
never succeeds: with an existing file at the target it fails with
`UnexpectedFile` about the target (not about the missing source); otherwise
it fails with the error produced when enumerating the nonexistent source.
The filesystem is unchanged either way. -/
theorem C10_copy_missing_source (fs : FS) (source target : FsPath)
    (hs1 : fs.isFile source = false) (hs2 : fs.isDir source = false) :
    copy fs source target
      = (fs, some (if fs.isFile target then FileError.UnexpectedFile target
                   else FileError.WalkDir source)) := by
  by_cases ht : fs.isFile target = true
  · simp [copy, hs1, hs2, ht]
  · simp only [Bool.not_eq_true] at ht
    simp [copy, hs1, hs2, ht]

/-- C10 witness: copying from a nonexistent source path to a fresh target
fails with the walk error on the source. -/
theorem C10_copy_missing_source_witness :
    copy { files := [(["a"], "x")], dirs := ([] : List FsPath) } ["nope"] ["w"]
      = ({ files := [(["a"], "x")], dirs := ([] : List FsPath) },
         some (FileError.WalkDir ["nope"])) :=
  (C10_copy_missing_source { files := [(["a"], "x")], dirs := ([] : List FsPath) }
    ["nope"] ["w"] (by decide) (by decide)).trans (by decide)

/-- C9: copying an existing file onto a path holding an existing file (and no
directory) succeeds with no error and silently overwrites the target with the
source's contents. -/
theorem C9_copy_file_overwrites_file (fs : FS) (A T : FsPath)
    (hwf : fs.WF) (hA : fs.isFile A = true) (hT : fs.isFile T = true) :
    (copy fs A T).2 = none ∧ (copy fs A T).1.readFile T = fs.readFile A := by
  have hTd : fs.isDir T = false := hwf.file_not_dir hT
  have hTne : T ≠ [] := hwf.file_ne_nil hT
  obtain ⟨c, hc⟩ : ∃ c, fs.readFile A = some c := Option.isSome_iff_exists.mp hA
  have hpar : parentDir T = some T.dropLast := by simp [parentDir, hTne]
  have hcopy : fs.fs_copy A T = some (fs.writeFileAt T c) :=
    fs_copy_some fs hc hTd hTne (hwf.file_parent hT)
  have hskip : fs.existsAt T.dropLast = true ∨ T.dropLast = [] := by
    rcases hwf.file_parent hT with hnil | hdir
    · exact Or.inr hnil
    · exact Or.inl (by simp [FS.existsAt, hdir])
  rcases hskip with hex | hnil
  · simp only [copy, hA, if_true, hTd, Bool.false_eq_true, if_false, hpar, hex, hcopy]
    exact ⟨by trivial, by rw [writeFileAt_readFile_self, hc]⟩
  · by_cases hex : fs.existsAt T.dropLast = true
    · simp only [copy, hA, if_true, hTd, Bool.false_eq_true, if_false, hpar, hex, hcopy]
      exact ⟨by trivial, by rw [writeFileAt_readFile_self, hc]⟩
    · simp only [Bool.not_eq_true] at hex
      have hnoop : fs.create_dir_all T.dropLast = (fs, none) := by
        rw [hnil]
        rfl
      simp only [copy, hA, if_true, hTd, Bool.false_eq_true, if_false, hpar, hex, hnoop, hcopy]
      exact ⟨by trivial, by rw [writeFileAt_readFile_self, hc]⟩

/-- C9 witness: overwriting `t` (contents "old") with `a` (contents "new")
succeeds and leaves "new" at `t`. -/
theorem C9_copy_file_overwrites_file_witness :
    (copy { files := [(["a"], "new"), (["t"], "old")], dirs := ([] : List FsPath) }
        ["a"] ["t"]).2 = none
    ∧ (copy { files := [(["a"], "new"), (["t"], "old")], dirs := ([] : List FsPath) }
        ["a"] ["t"]).1.readFile ["t"] = some "new" := by
  obtain ⟨h1, h2⟩ := C9_copy_file_overwrites_file
    { files := [(["a"], "new"), (["t"], "old")], dirs := ([] : List FsPath) }
    ["a"] ["t"] (by decide) (by decide) (by decide)
  exact ⟨h1, h2.trans (by decide)⟩

/-- C5 counterexample: with file `f` and directories `d` and `d/f` (a
well-formed filesystem), `copy f d` does not place a copy of `f` at `d/f` as
the claim states: the underlying file copy onto the existing directory `d/f`
fails, `copy` returns the `FileCopy` error, and no file appears at `d/f`. -/
theorem C5_counterexample_dir_at_target_name :
    ({ files := [(["f"], "x")], dirs := [["d"], ["d", "f"]] } : FS).WF
    ∧ ({ files := [(["f"], "x")], dirs := [["d"], ["d", "f"]] } : FS).isFile ["f"] = true
    ∧ ({ files := [(["f"], "x")], dirs := [["d"], ["d", "f"]] } : FS).isDir ["d"] = true
    ∧ (copy { files := [(["f"], "x")], dirs := [["d"], ["d", "f"]] } ["f"] ["d"]).2
        = some (FileError.FileCopy ["f"] ["d"])
    ∧ (copy { files := [(["f"], "x")], dirs := [["d"], ["d", "f"]] } ["f"] ["d"]).1.readFile
        ["d", "f"] = none := by
  decide

/-- C5 amended: copying an existing file A into an existing directory D
places A's contents at D/name(A) — overwriting an existing file there —
provided no existing directory occupies D/name(A); and if A has no file-name
component, the call fails with `NoFileName`. -/
theorem C5_copy_file_into_dir :
    (∀ (fs : FS) (A D : FsPath) (n : String),
        fs.isFile A = true → fs.isDir D = true → fileName A = some n →
        fs.isDir (D ++ [n]) = false →
        (copy fs A D).2 = none
        ∧ (copy fs A D).1.readFile (D ++ [n]) = fs.readFile A)
    ∧ (∀ (fs : FS) (A D : FsPath),
        fs.isFile A = true → fs.isDir D = true → fileName A = none →
        copy fs A D = (fs, some (FileError.NoFileName A))) := by
  constructor
  · intro fs A D n hA hD hn hfree
    obtain ⟨c, hc⟩ : ∃ c, fs.readFile A = some c := Option.isSome_iff_exists.mp hA
    have hne : D ++ [n] ≠ [] := by simp
    have hcopy : fs.fs_copy A (D ++ [n]) = some (fs.writeFileAt (D ++ [n]) c) :=
      fs_copy_some fs hc hfree hne (by rw [List.dropLast_concat]; exact Or.inr hD)
    simp only [copy, hA, if_true, hD, hn, hcopy]
    exact ⟨by trivial, by rw [writeFileAt_readFile_self, hc]⟩
  · intro fs A D hA hD hn
    simp [copy, hA, hD, hn]

/-- C5 witness: the amended theorem at a concrete filesystem: file `f`
(contents "x") copied into directory `d` lands at `d/f` with contents "x". -/
theorem C5_copy_file_into_dir_witness :
    (copy { files := [(["f"], "x")], dirs := [["d"]] } ["f"] ["d"]).2 = none
    ∧ (copy { files := [(["f"], "x")], dirs := [["d"]] } ["f"] ["d"]).1.readFile ["d", "f"]
        = some "x" := by
  obtain ⟨h1, h2⟩ := C5_copy_file_into_dir.1 { files := [(["f"], "x")], dirs := [["d"]] }
    ["f"] ["d"] "f" (by decide) (by decide) (by decide) (by decide)
  exact ⟨h1, h2.trans (by decide)⟩

/-- C6 counterexample: files `f` and `t` exist (a well-formed filesystem);
target `t/y` is not an existing directory and source `f` is an existing file,
yet `copy f t/y` fails — the existing file `t` occupies the target's parent
path, the parent-creation step is skipped because `t` exists, and the file
copy then fails — so no content is produced at `t/y` and no parent directory
is created, contrary to the claim. -/
theorem C6_counterexample_file_blocks_parent :
    ({ files := [(["f"], "x"), (["t"], "b")], dirs := ([] : List FsPath) } : FS).WF
    ∧ ({ files := [(["f"], "x"), (["t"], "b")], dirs := ([] : List FsPath) } : FS).isFile ["f"]
        = true
    ∧ ({ files := [(["f"], "x"), (["t"], "b")], dirs := ([] : List FsPath) } : FS).isDir
        ["t", "y"] = false
    ∧ (copy { files := [(["f"], "x"), (["t"], "b")], dirs := ([] : List FsPath) }
        ["f"] ["t", "y"]).2 = some (FileError.FileCopy ["f"] ["t", "y"])
    ∧ (copy { files := [(["f"], "x"), (["t"], "b")], dirs := ([] : List FsPath) }
        ["f"] ["t", "y"]).1.readFile ["t", "y"] = none := by
  decide

/-- C6 amended: copying an existing file A to a target path T that is not an
existing directory succeeds — creating every missing parent directory of T
first and producing A's contents at exactly T — provided T is not the root
path and no existing file occupies a nonempty prefix of T's parent. -/
theorem C6_copy_file_to_path (fs : FS) (A T : FsPath)
    (hwf : fs.WF) (hA : fs.isFile A = true) (hT : fs.isDir T = false) (hTne : T ≠ [])
    (hanc : ∀ a ∈ ancestorsOf T.dropLast, fs.isFile a = false) :
    (copy fs A T).2 = none ∧ (copy fs A T).1.readFile T = fs.readFile A
    ∧ ∀ a ∈ ancestorsOf T.dropLast, (copy fs A T).1.isDir a = true := by
  obtain ⟨c, hc⟩ : ∃ c, fs.readFile A = some c := Option.isSome_iff_exists.mp hA
  have hanc' : ∀ a, a ≠ [] → a <+: T.dropLast → fs.isFile a = false := fun a h1 h2 =>
    hanc a (mem_ancestorsOf.mpr ⟨h1, h2⟩)
  have hpar : parentDir T = some T.dropLast := by simp [parentDir, hTne]
  by_cases hex : fs.existsAt T.dropLast = true
  · have hpdir : T.dropLast = [] ∨ fs.isDir T.dropLast = true := by
      by_cases hnil : T.dropLast = []
      · exact Or.inl hnil
      · refine Or.inr ?_
        have hnf : fs.isFile T.dropLast = false := hanc' _ hnil (List.prefix_refl _)
        rw [FS.existsAt, hnf, Bool.false_or] at hex
        exact hex
    have hcopy : fs.fs_copy A T = some (fs.writeFileAt T c) := fs_copy_some fs hc hT hTne hpdir
    simp only [copy, hA, if_true, hT, Bool.false_eq_true, if_false, hpar, hex, hcopy]
    refine ⟨by trivial, by rw [writeFileAt_readFile_self, hc], ?_⟩
    intro a ha
    obtain ⟨hane, hapre⟩ := mem_ancestorsOf.mp ha
    rcases hpdir with hnil | hdir
    · rw [hnil] at hapre
      exact absurd (List.prefix_nil.mp hapre) hane
    · have : fs.isDir a = true :=
        hwf.dirs_closed T.dropLast.length T.dropLast le_rfl hdir a hane hapre
      rw [writeFileAt_isDir]
      exact this
  · simp only [Bool.not_eq_true] at hex
    obtain ⟨hok, hall⟩ := create_dir_all_ok fs T.dropLast hanc'
    rcases hsplit : fs.create_dir_all T.dropLast with ⟨fs1, e⟩
    have he : e = none := by rw [hsplit] at hok; exact hok
    subst he
    have hfiles1 : fs1.files = fs.files := by
      have := create_dir_all_files fs T.dropLast
      rw [hsplit] at this
      exact this
    have hT1 : fs1.isDir T = false := by
      by_contra hco
      simp only [Bool.not_eq_false] at hco
      have hsub := create_dir_all_dirs_sub fs T.dropLast T (by rw [hsplit]; exact hco)
      rcases hsub with hdir | ⟨hne2, hpre2⟩
      · rw [hT] at hdir
        exact Bool.false_ne_true hdir
      · have h1 := hpre2.length_le
        have h2 : T.dropLast.length = T.length - 1 := List.length_dropLast T
        have h3 : 1 ≤ T.length := by
          cases T with
          | nil => exact absurd rfl hTne
          | cons x xs => simp
        omega
    have hc1 : fs1.readFile A = some c := by rw [FS.readFile, hfiles1]; exact hc
    have hpdir1 : T.dropLast = [] ∨ fs1.isDir T.dropLast = true := by
      by_cases hnil : T.dropLast = []
      · exact Or.inl hnil
      · refine Or.inr ?_
        have := hall T.dropLast hnil (List.prefix_refl _)
        rw [hsplit] at this
        exact this
    have hcopy : fs1.fs_copy A T = some (fs1.writeFileAt T c) :=
      fs_copy_some fs1 hc1 hT1 hTne hpdir1
    simp only [copy, hA, if_true, hT, Bool.false_eq_true, if_false, hpar, hex, hsplit, hcopy]
    refine ⟨by trivial, by rw [writeFileAt_readFile_self, hc], ?_⟩
    intro a ha
    obtain ⟨hane, hapre⟩ := mem_ancestorsOf.mp ha
    have := hall a hane hapre
    rw [hsplit] at this
    rw [writeFileAt_isDir]
    exact this

/-- C6 witness: the amended theorem at a concrete filesystem: copying file
`f` (contents "x") to the fresh path `t/y` creates directory `t` and puts
"x" at `t/y`. -/
theorem C6_copy_file_to_path_witness :
    (copy { files := [(["f"], "x")], dirs := ([] : List FsPath) } ["f"] ["t", "y"]).2 = none
    ∧ (copy { files := [(["f"], "x")], dirs := ([] : List FsPath) } ["f"] ["t", "y"]).1.readFile
        ["t", "y"] = some "x"
    ∧ (copy { files := [(["f"], "x")], dirs := ([] : List FsPath) } ["f"] ["t", "y"]).1.isDir
        ["t"] = true := by
  obtain ⟨h1, h2, h3⟩ := C6_copy_file_to_path
    { files := [(["f"], "x")], dirs := ([] : List FsPath) } ["f"] ["t", "y"]
    (by decide) (by decide) (by decide) (by decide) (by decide)
  exact ⟨h1, h2.trans (by decide), h3 ["t"] (by decide)⟩

/-- Rebase an entry of the walked source tree under the target: the code's
`target.join(entry_path.strip_prefix(prefix).unwrap())` with `pre` the
source's parent. -/
def rebase (pre target e : FsPath) : FsPath := target ++ e.drop pre.length

theorem prefix_append_drop {p e : FsPath} (h : p <+: e) : p ++ e.drop p.length = e :=
  List.prefix_iff_eq_append.mp h

theorem dropLast_prefix_self (l : FsPath) : l.dropLast <+: l := by
  rw [List.dropLast_eq_take]
  exact List.take_prefix _ _

theorem prefix_length_lt {a d : FsPath} (h : a <+: d) (hne : a ≠ d) :
    a.length < d.length := by
  rcases Nat.lt_or_ge a.length d.length with hlt | hge
  · exact hlt
  · exact absurd (h.eq_of_length (Nat.le_antisymm h.length_le hge)) hne

theorem prefix_dropLast_of_proper {a d : FsPath} (h : a <+: d) (hne : a ≠ d) :
    a <+: d.dropLast := by
  have hlt : a.length < d.length := prefix_length_lt h hne
  rw [List.prefix_iff_eq_take] at h ⊢
  rw [List.dropLast_eq_take, List.take_take]
  have hmin : a.length ⊓ (d.length - 1) = a.length := by
    rw [Nat.min_def]
    split <;> omega
  rw [hmin]
  exact h

theorem ne_nil_of_extends {source x : FsPath} (hs : source ≠ []) (h : source <+: x) :
    x ≠ [] := by
  intro hx
  rw [hx] at h
  exact hs (List.prefix_nil.mp h)

theorem strip_recompose {source e : FsPath} (he : source <+: e) :
    source.dropLast ++ e.drop source.dropLast.length = e :=
  prefix_append_drop ((dropLast_prefix_self source).trans he)

theorem rebase_inj {source target x y : FsPath} (hx : source <+: x) (hy : source <+: y)
    (h : rebase source.dropLast target x = rebase source.dropLast target y) : x = y := by
  have h' := List.append_cancel_left h
  rw [← strip_recompose hx, ← strip_recompose hy, h']

theorem rebase_prefix_iff {source target x y : FsPath} (hx : source <+: x)
    (hy : source <+: y) :
    rebase source.dropLast target x <+: rebase source.dropLast target y ↔ x <+: y := by
  rw [rebase, rebase, List.prefix_append_right_inj]
  constructor
  · intro h
    rw [← strip_recompose hx, ← strip_recompose hy]
    exact (List.prefix_append_right_inj source.dropLast).mpr h
  · intro h
    have h2 : source.dropLast ++ x.drop source.dropLast.length
        <+: source.dropLast ++ y.drop source.dropLast.length := by
      rw [strip_recompose hx, strip_recompose hy]
      exact h
    exact (List.prefix_append_right_inj source.dropLast).mp h2

theorem length_pos_of_ne_nil {l : FsPath} (h : l ≠ []) : 1 ≤ l.length := by
  cases l with
  | nil => exact absurd rfl h
  | cons x xs => simp

theorem rebase_length {source target e : FsPath} (hs : source ≠ []) (he : source <+: e) :
    (rebase source.dropLast target e).length = target.length + (e.length - (source.length - 1)) := by
  rw [rebase, List.length_append, List.length_drop, List.length_dropLast]

theorem rebase_ne_nil {source target e : FsPath} (hs : source ≠ []) (he : source <+: e) :
    rebase source.dropLast target e ≠ [] := by
  intro hnil
  have h0 : (rebase source.dropLast target e).length = 0 := by rw [hnil]; rfl
  rw [rebase_length hs he] at h0
  have h1 := length_pos_of_ne_nil hs
  have h2 := he.length_le
  omega

theorem timg_not_prefix_target {source target : FsPath} (hs : source ≠ []) :
    ¬(rebase source.dropLast target source <+: target) := by
  intro h
  have h1 := h.length_le
  rw [rebase_length hs (List.prefix_refl _)] at h1
  have h2 := length_pos_of_ne_nil hs
  omega

theorem timg_prefix_rebase {source target e : FsPath} (he : source <+: e) :
    rebase source.dropLast target source <+: rebase source.dropLast target e :=
  (rebase_prefix_iff (List.prefix_refl _) he).mpr he

theorem prefix_append_cases {a t s : FsPath} (h : a <+: t ++ s) :
    a <+: t ∨ ∃ u, u <+: s ∧ u ≠ [] ∧ a = t ++ u := by
  rcases le_or_lt a.length t.length with hle | hlt
  · exact Or.inl (List.prefix_of_prefix_length_le h (List.prefix_append t s) hle)
  · right
    have ht : t <+: a :=
      List.prefix_of_prefix_length_le (List.prefix_append t s) h (Nat.le_of_lt hlt)
    obtain ⟨u, rfl⟩ := ht
    obtain ⟨r, hr⟩ := h
    rw [List.append_assoc] at hr
    have hur : u ++ r = s := List.append_cancel_left hr
    refine ⟨u, ⟨r, hur⟩, ?_, rfl⟩
    intro hu
    rw [hu] at hlt
    simp at hlt

/-- A nonempty prefix of a rebased source entry is either a prefix of the
target or itself the rebasing of a source-tree path below the entry. -/
theorem prefix_of_rebase {source target e a : FsPath} (hs : source ≠ [])
    (he : source <+: e) (ha : a <+: rebase source.dropLast target e) (hane : a ≠ []) :
    a <+: target
    ∨ ∃ x, source <+: x ∧ x <+: e ∧ a = rebase source.dropLast target x := by
  rcases prefix_append_cases ha with h | ⟨u, hu, hune, rfl⟩
  · exact Or.inl h
  · right
    obtain ⟨w, hw⟩ := he
    have hsrc : source.dropLast ++ [source.getLast hs] = source :=
      List.dropLast_append_getLast hs
    have hstrip : e.drop source.dropLast.length = source.getLast hs :: w := by
      have h1 : source.dropLast ++ (source.getLast hs :: w) = e :=
        calc source.dropLast ++ (source.getLast hs :: w)
            = (source.dropLast ++ [source.getLast hs]) ++ w := by simp
          _ = source ++ w := by rw [hsrc]
          _ = e := hw
      rw [← h1, List.drop_left]
    rw [hstrip] at hu
    obtain ⟨uh, ut, rfl⟩ : ∃ uh ut, u = uh :: ut := by
      cases u with
      | nil => exact absurd rfl hune
      | cons x xs => exact ⟨x, xs, rfl⟩
    obtain ⟨huh, hut⟩ := List.cons_prefix_cons.mp hu
    refine ⟨source ++ ut, ⟨ut, rfl⟩, ?_, ?_⟩
    · rw [← hw]
      exact (List.prefix_append_right_inj source).mpr hut
    · rw [rebase]
      congr 1
      have h2 : source ++ ut = source.dropLast ++ (uh :: ut) :=
        calc source ++ ut = (source.dropLast ++ [source.getLast hs]) ++ ut := by rw [hsrc]
          _ = source.dropLast ++ (source.getLast hs :: ut) := by simp
          _ = source.dropLast ++ (uh :: ut) := by rw [huh]
      rw [h2, List.drop_left]

/-- Invariant relating the filesystem during the directory walk to the
snapshot `fs0` it started from: reads are either untouched or hold the copied
contents of a source file at its rebased path; directories are either
original, prefixes of the target (created as intermediate directories), or
rebased source directories; and no original directory disappears. -/
def CopyInv (fs0 fsCur : FS) (source target : FsPath) : Prop :=
  (∀ p, fsCur.readFile p = fs0.readFile p
      ∨ ∃ e, source <+: e ∧ fs0.isFile e = true ∧ p = rebase source.dropLast target e
          ∧ fsCur.readFile p = fs0.readFile e)
  ∧ (∀ q, fsCur.isDir q = true →
      fs0.isDir q = true ∨ (q ≠ [] ∧ q <+: target)
      ∨ ∃ d, source <+: d ∧ fs0.isDir d = true ∧ q = rebase source.dropLast target d)
  ∧ (∀ q, fs0.isDir q = true → fsCur.isDir q = true)

theorem CopyInv.init (fs0 : FS) (source target : FsPath) :
    CopyInv fs0 fs0 source target :=
  ⟨fun p => Or.inl rfl, fun q hq => Or.inl hq, fun q hq => hq⟩

theorem CopyInv.isFile_char {fs0 fsCur : FS} {source target : FsPath}
    (hI : CopyInv fs0 fsCur source target) {q : FsPath} (hq : fsCur.isFile q = true) :
    fs0.isFile q = true
    ∨ ∃ e, source <+: e ∧ fs0.isFile e = true ∧ q = rebase source.dropLast target e := by
  rcases hI.1 q with h | ⟨e, h1, h2, h3, h4⟩
  · left
    have hq' : (fsCur.readFile q).isSome = true := hq
    rw [h] at hq'
    exact hq'
  · exact Or.inr ⟨e, h1, h2, h3⟩

theorem CopyInv.readFile_pres {fs0 fsCur : FS} {source target : FsPath}
    (hI : CopyInv fs0 fsCur source target) {q : FsPath}
    (hq : ¬(rebase source.dropLast target source <+: q)) :
    fsCur.readFile q = fs0.readFile q := by
  rcases hI.1 q with h | ⟨e, h1, _, h3, _⟩
  · exact h
  · exact absurd (h3 ▸ timg_prefix_rebase h1) hq

theorem copyWalk_cons_dir {fs : FS} {e : FsPath} {rest : List FsPath} {pre target : FsPath}
    (hdir : fs.isDir e = true) :
    copyWalk fs (e :: rest) pre target =
      (match fs.create_dir_all (rebase pre target e) with
       | (fs2, some err) => (fs2, some err)
       | (fs2, none) => copyWalk fs2 rest pre target) := by
  simp only [copyWalk, hdir, if_true, rebase]

theorem copyWalk_cons_file {fs : FS} {e : FsPath} {rest : List FsPath} {pre target : FsPath}
    (hdir : fs.isDir e = false) :
    copyWalk fs (e :: rest) pre target =
      (match (match parentDir (rebase pre target e) with
              | some par => fs.create_dir_all par
              | none => (fs, none)) with
       | (fs1, some err) => (fs1, some err)
       | (fs1, none) =>
         match fs1.fs_copy e (rebase pre target e) with
         | none => (fs1, some (FileError.FileCopy e (rebase pre target e)))
         | some fs2 => copyWalk fs2 rest pre target) := by
  simp only [copyWalk, hdir, Bool.false_eq_true, if_false, rebase]

/-- No existing file in the walk's current state blocks a nonempty prefix of
the rebased path of a source directory entry. -/
theorem dir_entry_free {fs0 fsCur : FS} {source target e : FsPath}
    (hwf : fs0.WF) (hsd : fs0.isDir source = true)
    (H1 : ∀ a, a ≠ [] → a <+: target → fs0.isFile a = false)
    (H2f : ∀ p, fs0.isFile p = true → ¬(rebase source.dropLast target source <+: p))
    (hI : CopyInv fs0 fsCur source target)
    (he : source <+: e) (hedir : fs0.isDir e = true) :
    ∀ a, a ≠ [] → a <+: rebase source.dropLast target e → fsCur.isFile a = false := by
  intro a hane hapre
  have hs0 : source ≠ [] := hwf.dir_ne_nil hsd
  by_contra hcow
  simp only [Bool.not_eq_false] at hcow
  rcases hI.isFile_char hcow with hf0 | ⟨e₂, he₂1, he₂2, rfl⟩
  · rcases prefix_of_rebase hs0 he hapre hane with hat | ⟨x, hx1, hx2, rfl⟩
    · rw [H1 a hane hat] at hf0
      exact Bool.false_ne_true hf0
    · exact H2f _ hf0 (timg_prefix_rebase hx1)
  · rcases prefix_of_rebase hs0 he hapre hane with hat | ⟨x, hx1, hx2, hax⟩
    · exact timg_not_prefix_target hs0 ((timg_prefix_rebase he₂1).trans hat)
    · have hxe : e₂ = x := rebase_inj he₂1 hx1 hax
      subst hxe
      have hdir : fs0.isDir e₂ = true :=
        hwf.dirs_closed e.length e le_rfl hedir e₂ (ne_nil_of_extends hs0 he₂1) hx2
      rw [hwf.dir_not_file hdir] at he₂2
      exact Bool.false_ne_true he₂2

/-- No existing file in the walk's current state blocks a nonempty prefix of
the parent of the rebased path of a source file entry. -/
theorem file_entry_free {fs0 fsCur : FS} {source target e : FsPath}
    (hwf : fs0.WF) (hsd : fs0.isDir source = true)
    (H1 : ∀ a, a ≠ [] → a <+: target → fs0.isFile a = false)
    (H2f : ∀ p, fs0.isFile p = true → ¬(rebase source.dropLast target source <+: p))
    (hI : CopyInv fs0 fsCur source target)
    (he : source <+: e) (hefile : fs0.isFile e = true) :
    ∀ a, a ≠ [] → a <+: (rebase source.dropLast target e).dropLast →
      fsCur.isFile a = false := by
  intro a hane hapre0
  have hs0 : source ≠ [] := hwf.dir_ne_nil hsd
  have hapre : a <+: rebase source.dropLast target e := hapre0.trans (dropLast_prefix_self _)
  have hane2 : a ≠ rebase source.dropLast target e := by
    intro hcontra
    have h1 := hapre0.length_le
    have h2 : (rebase source.dropLast target e).dropLast.length
        = (rebase source.dropLast target e).length - 1 := List.length_dropLast _
    have h3 := length_pos_of_ne_nil (@rebase_ne_nil source target e hs0 he)
    rw [hcontra] at h1
    omega
  by_contra hcow
  simp only [Bool.not_eq_false] at hcow
  rcases hI.isFile_char hcow with hf0 | ⟨e₂, he₂1, he₂2, rfl⟩
  · rcases prefix_of_rebase hs0 he hapre hane with hat | ⟨x, hx1, hx2, rfl⟩
    · rw [H1 a hane hat] at hf0
      exact Bool.false_ne_true hf0
    · exact H2f _ hf0 (timg_prefix_rebase hx1)
  · rcases prefix_of_rebase hs0 he hapre hane with hat | ⟨x, hx1, hx2, hax⟩
    · exact timg_not_prefix_target hs0 ((timg_prefix_rebase he₂1).trans hat)
    · have hxe : e₂ = x := rebase_inj he₂1 hx1 hax
      subst hxe
      have hne : e ≠ e₂ := by
        intro hcontra
        exact hane2 (by rw [hcontra])
      exact hwf.no_entry_under_file he₂2 (Or.inl hefile) hne hx2

/-- Main specification of the directory-branch walk of `copy`: started in a
state related to the snapshot `fs0` by `CopyInv`, on entries of the source
tree, the walk succeeds, keeps the invariant, never loses a directory or an
unrelated file, and produces every entry's rebased image — a created
directory for each source directory, and a copy of the contents for each
source file. -/
theorem copyWalk_spec (fs0 : FS) (source target : FsPath)
    (hwf : fs0.WF) (hsd : fs0.isDir source = true)
    (H1 : ∀ a, a ≠ [] → a <+: target → fs0.isFile a = false)
    (H2f : ∀ p, fs0.isFile p = true → ¬(rebase source.dropLast target source <+: p))
    (H2d : ∀ d, fs0.isDir d = true → ¬(rebase source.dropLast target source <+: d)) :
    ∀ (entries : List FsPath) (fsCur : FS),
      entries.Nodup →
      (∀ e ∈ entries, source <+: e ∧ (fs0.isDir e = true ∨ fs0.isFile e = true)) →
      CopyInv fs0 fsCur source target →
      (copyWalk fsCur entries source.dropLast target).2 = none
      ∧ CopyInv fs0 (copyWalk fsCur entries source.dropLast target).1 source target
      ∧ (∀ q, fsCur.isDir q = true →
          (copyWalk fsCur entries source.dropLast target).1.isDir q = true)
      ∧ (∀ p v, fsCur.readFile p = some v →
          (∀ e ∈ entries, fs0.isFile e = true → p ≠ rebase source.dropLast target e) →
          (copyWalk fsCur entries source.dropLast target).1.readFile p = some v)
      ∧ (∀ e ∈ entries,
          (fs0.isDir e = true →
            (copyWalk fsCur entries source.dropLast target).1.isDir
              (rebase source.dropLast target e) = true)
          ∧ (fs0.isFile e = true →
            (copyWalk fsCur entries source.dropLast target).1.readFile
              (rebase source.dropLast target e) = fs0.readFile e)) := by
  intro entries
  induction entries with
  | nil =>
    intro fsCur _ _ hI
    exact ⟨rfl, hI, fun q h => h, fun p v h _ => h, by simp⟩
  | cons e rest ih =>
    intro fsCur hnd hent hI
    have hs0 : source ≠ [] := hwf.dir_ne_nil hsd
    obtain ⟨hepre, hekind⟩ := hent e (List.mem_cons_self _ _)
    have hrestent : ∀ x ∈ rest, source <+: x ∧ (fs0.isDir x = true ∨ fs0.isFile x = true) :=
      fun x hx => hent x (List.mem_cons_of_mem _ hx)
    have hnd' : rest.Nodup := hnd.of_cons
    have henotin : e ∉ rest := (List.nodup_cons.mp hnd).1
    rcases hekind with hedir | hefile
    · -- directory entry
      have hcur : fsCur.isDir e = true := hI.2.2 e hedir
      have hfree := dir_entry_free hwf hsd H1 H2f hI hepre hedir
      obtain ⟨hok0, hall0⟩ := create_dir_all_ok fsCur (rebase source.dropLast target e) hfree
      rcases hsplit : fsCur.create_dir_all (rebase source.dropLast target e) with ⟨fs2, err⟩
      rw [hsplit] at hok0
      subst hok0
      have hfiles2 : fs2.files = fsCur.files := by
        have h := create_dir_all_files fsCur (rebase source.dropLast target e)
        rw [hsplit] at h
        exact h
      have hmono2 : ∀ q, fsCur.isDir q = true → fs2.isDir q = true := by
        intro q hq
        have h := create_dir_all_dirs_mono fsCur (rebase source.dropLast target e) q hq
        rw [hsplit] at h
        exact h
      have hI2 : CopyInv fs0 fs2 source target := by
        refine ⟨?_, ?_, ?_⟩
        · intro p
          have hfp : fs2.readFile p = fsCur.readFile p := by
            rw [FS.readFile, FS.readFile, hfiles2]
          rcases hI.1 p with h | ⟨e₂, h1, h2, h3, h4⟩
          · exact Or.inl (hfp.trans h)
          · exact Or.inr ⟨e₂, h1, h2, h3, hfp.trans h4⟩
        · intro q hq
          have hsub := create_dir_all_dirs_sub fsCur (rebase source.dropLast target e) q
            (by rw [hsplit]; exact hq)
          rcases hsub with hq' | ⟨hqne, hqpre⟩
          · exact hI.2.1 q hq'
          · rcases prefix_of_rebase hs0 hepre hqpre hqne with hqt | ⟨x, hx1, hx2, rfl⟩
            · exact Or.inr (Or.inl ⟨hqne, hqt⟩)
            · exact Or.inr (Or.inr ⟨x, hx1,
                hwf.dirs_closed e.length e le_rfl hedir x (ne_nil_of_extends hs0 hx1) hx2,
                rfl⟩)
        · intro q hq
          exact hmono2 q (hI.2.2 q hq)
      obtain ⟨hokr, hIr, hmonor, hpresr, heffr⟩ := ih fs2 hnd' hrestent hI2
      rw [copyWalk_cons_dir hcur, hsplit]
      refine ⟨hokr, hIr, ?_, ?_, ?_⟩
      · intro q hq
        exact hmonor q (hmono2 q hq)
      · intro p v hp hcond
        have hp2 : fs2.readFile p = some v := by
          rw [FS.readFile, hfiles2]
          exact hp
        exact hpresr p v hp2 (fun x hx hxf => hcond x (List.mem_cons_of_mem _ hx) hxf)
      · intro x hx
        rcases List.mem_cons.mp hx with rfl | hxr
        · constructor
          · intro _
            apply hmonor
            have h := hall0 (rebase source.dropLast target x)
              (rebase_ne_nil hs0 hepre) (List.prefix_refl _)
            rw [hsplit] at h
            exact h
          · intro hxf
            rw [hwf.dir_not_file hedir] at hxf
            exact absurd hxf Bool.false_ne_true
        · exact heffr x hxr
    · -- file entry
      have hcurd : fsCur.isDir e = false := by
        by_contra hco
        simp only [Bool.not_eq_false] at hco
        rcases hI.2.1 e hco with h0 | ⟨hne, hpre⟩ | ⟨d, hd1, hd2, hde⟩
        · rw [hwf.file_not_dir hefile] at h0
          exact Bool.false_ne_true h0
        · rw [H1 e hne hpre] at hefile
          exact Bool.false_ne_true hefile
        · exact H2f e hefile (hde ▸ timg_prefix_rebase hd1)
      have htgtne : rebase source.dropLast target e ≠ [] := rebase_ne_nil hs0 hepre
      have hpar : parentDir (rebase source.dropLast target e)
          = some (rebase source.dropLast target e).dropLast := by
        simp [parentDir, htgtne]
      have hfree := file_entry_free hwf hsd H1 H2f hI hepre hefile
      obtain ⟨hok0, hall0⟩ :=
        create_dir_all_ok fsCur (rebase source.dropLast target e).dropLast hfree
      rcases hsplit : fsCur.create_dir_all (rebase source.dropLast target e).dropLast
        with ⟨fs1, err⟩
      rw [hsplit] at hok0
      subst hok0
      have hfiles1 : fs1.files = fsCur.files := by
        have h := create_dir_all_files fsCur (rebase source.dropLast target e).dropLast
        rw [hsplit] at h
        exact h
      have hmono1 : ∀ q, fsCur.isDir q = true → fs1.isDir q = true := by
        intro q hq
        have h := create_dir_all_dirs_mono fsCur (rebase source.dropLast target e).dropLast q hq
        rw [hsplit] at h
        exact h
      have hepres : fsCur.readFile e = fs0.readFile e :=
        hI.readFile_pres (fun hcon => H2f e hefile hcon)
      obtain ⟨c, hc⟩ : ∃ c, fs0.readFile e = some c := Option.isSome_iff_exists.mp hefile
      have hc1 : fs1.readFile e = some c := by
        rw [FS.readFile, hfiles1]
        exact hepres.trans hc
      have htgtnd : fs1.isDir (rebase source.dropLast target e) = false := by
        by_contra hco
        simp only [Bool.not_eq_false] at hco
        have hsub := create_dir_all_dirs_sub fsCur
          (rebase source.dropLast target e).dropLast
          (rebase source.dropLast target e) (by rw [hsplit]; exact hco)
        rcases hsub with hq' | ⟨hqne, hqpre⟩
        · rcases hI.2.1 _ hq' with h0 | ⟨hne2, hpre2⟩ | ⟨d, hd1, hd2, hde⟩
          · exact H2d _ h0 (timg_prefix_rebase hepre)
          · exact timg_not_prefix_target hs0 ((timg_prefix_rebase hepre).trans hpre2)
          · have hde' : d = e := rebase_inj hd1 hepre hde.symm
            subst hde'
            rw [hwf.file_not_dir hefile] at hd2
            exact Bool.false_ne_true hd2
        · have h1 := hqpre.length_le
          have h2 : (rebase source.dropLast target e).dropLast.length
              = (rebase source.dropLast target e).length - 1 := List.length_dropLast _
          have h3 := length_pos_of_ne_nil htgtne
          omega
      have hpdir : (rebase source.dropLast target e).dropLast = []
          ∨ fs1.isDir (rebase source.dropLast target e).dropLast = true := by
        by_cases hnil : (rebase source.dropLast target e).dropLast = []
        · exact Or.inl hnil
        · refine Or.inr ?_
          have h := hall0 _ hnil (List.prefix_refl _)
          rw [hsplit] at h
          exact h
      have hcopy : fs1.fs_copy e (rebase source.dropLast target e)
          = some (fs1.writeFileAt (rebase source.dropLast target e) c) :=
        fs_copy_some fs1 hc1 htgtnd htgtne hpdir
      set fs2 := fs1.writeFileAt (rebase source.dropLast target e) c with hfs2
      have hI2 : CopyInv fs0 fs2 source target := by
        refine ⟨?_, ?_, ?_⟩
        · intro p
          by_cases hp : p = rebase source.dropLast target e
          · subst hp
            refine Or.inr ⟨e, hepre, hefile, rfl, ?_⟩
            rw [hfs2, writeFileAt_readFile_self, hc]
          · have hfp : fs2.readFile p = fsCur.readFile p := by
              rw [hfs2, writeFileAt_readFile_ne fs1 c hp, FS.readFile, FS.readFile, hfiles1]
            rcases hI.1 p with h | ⟨e₂, h1, h2, h3, h4⟩
            · exact Or.inl (hfp.trans h)
            · exact Or.inr ⟨e₂, h1, h2, h3, hfp.trans h4⟩
        · intro q hq
          rw [hfs2, writeFileAt_isDir] at hq
          have hsub := create_dir_all_dirs_sub fsCur
            (rebase source.dropLast target e).dropLast q (by rw [hsplit]; exact hq)
          rcases hsub with hq' | ⟨hqne, hqpre⟩
          · exact hI.2.1 q hq'
          · have hqpre' : q <+: rebase source.dropLast target e :=
              hqpre.trans (dropLast_prefix_self _)
            rcases prefix_of_rebase hs0 hepre hqpre' hqne with hqt | ⟨x, hx1, hx2, rfl⟩
            · exact Or.inr (Or.inl ⟨hqne, hqt⟩)
            · have hxnee : x ≠ e := by
                intro hxe
                subst hxe
                have h1 := hqpre.length_le
                have h2 : (rebase source.dropLast target x).dropLast.length
                    = (rebase source.dropLast target x).length - 1 := List.length_dropLast _
                have h3 := length_pos_of_ne_nil (@rebase_ne_nil source target x hs0 hx1)
                omega
              have hplt : x <+: e.dropLast := prefix_dropLast_of_proper hx2 hxnee
              have hdlne : e.dropLast ≠ [] := by
                intro h0
                rw [h0] at hplt
                exact (ne_nil_of_extends hs0 hx1) (List.prefix_nil.mp hplt)
              have hddir : fs0.isDir e.dropLast = true := by
                rcases hwf.file_parent hefile with h0 | h0
                · exact absurd h0 hdlne
                · exact h0
              exact Or.inr (Or.inr ⟨x, hx1,
                hwf.dirs_closed e.dropLast.length e.dropLast le_rfl hddir x
                  (ne_nil_of_extends hs0 hx1) hplt, rfl⟩)
        · intro q hq
          rw [hfs2, writeFileAt_isDir]
          exact hmono1 q (hI.2.2 q hq)
      obtain ⟨hokr, hIr, hmonor, hpresr, heffr⟩ := ih fs2 hnd' hrestent hI2
      rw [copyWalk_cons_file hcurd]
      simp only [hpar, hsplit, hcopy]
      refine ⟨hokr, hIr, ?_, ?_, ?_⟩
      · intro q hq
        refine hmonor q ?_
        rw [hfs2, writeFileAt_isDir]
        exact hmono1 q hq
      · intro p v hp hcond
        have hpne : p ≠ rebase source.dropLast target e :=
          hcond e (List.mem_cons_self _ _) hefile
        have hp2 : fs2.readFile p = some v := by
          rw [hfs2, writeFileAt_readFile_ne fs1 c hpne, FS.readFile, hfiles1]
          exact hp
        exact hpresr p v hp2 (fun x hx hxf => hcond x (List.mem_cons_of_mem _ hx) hxf)
      · intro x hx
        rcases List.mem_cons.mp hx with rfl | hxr
        · constructor
          · intro hxd
            rw [hwf.file_not_dir hefile] at hxd
            exact absurd hxd Bool.false_ne_true
          · intro _
            have hself : fs2.readFile (rebase source.dropLast target x) = some c := by
              rw [hfs2, writeFileAt_readFile_self]
            have hcond2 : ∀ y ∈ rest, fs0.isFile y = true →
                rebase source.dropLast target x ≠ rebase source.dropLast target y := by
              intro y hy _ hcontra
              have hxy : x = y := rebase_inj hepre (hrestent y hy).1 hcontra
              exact henotin (hxy ▸ hy)
            have hfinal := hpresr _ c hself hcond2
            rw [hfinal, hc]
        · exact heffr x hxr

/-- C3 counterexample: a well-formed filesystem with directory `D` and file
`t`; the target `t/x` is not an existing file, yet `copy D t/x` does not
produce the copied tree: creating `t/x/D` fails with `DirCreate` because the
existing file `t` blocks the directory chain, and no directory appears at
`t/x/D`. -/
theorem C3_counterexample_file_blocks_target :
    ({ files := [(["t"], "z")], dirs := [["D"]] } : FS).WF
    ∧ ({ files := [(["t"], "z")], dirs := [["D"]] } : FS).isDir ["D"] = true
    ∧ ({ files := [(["t"], "z")], dirs := [["D"]] } : FS).isFile ["t", "x"] = false
    ∧ (copy { files := [(["t"], "z")], dirs := [["D"]] } ["D"] ["t", "x"]).2
        = some (FileError.DirCreate ["t", "x", "D"])
    ∧ (copy { files := [(["t"], "z")], dirs := [["D"]] } ["D"] ["t", "x"]).1.isDir
        ["t", "x", "D"] = false := by
  decide

/-- C3 amended: copying an existing directory to a target that is not an
existing file copies every entry of the source tree to its path relative to
the source's parent rebased under the target — creating intermediate
directories as needed and creating empty source directories at the
corresponding target location — provided no existing file occupies a prefix
of the target and nothing at all exists inside the target image subtree
`target/name(source)`. -/
theorem C3_copy_directory_tree (fs : FS) (source target : FsPath)
    (hwf : fs.WF) (hsd : fs.isDir source = true) (htf : fs.isFile target = false)
    (H1 : ∀ a ∈ ancestorsOf target, fs.isFile a = false)
    (H2f : ∀ p ∈ fs.files.map Prod.fst,
        path_starts_with p (rebase source.dropLast target source) = false)
    (H2d : ∀ d ∈ fs.dirs,
        path_starts_with d (rebase source.dropLast target source) = false) :
    (copy fs source target).2 = none
    ∧ (∀ d ∈ fs.dirs, path_starts_with d source = true →
        (copy fs source target).1.isDir (rebase source.dropLast target d) = true)
    ∧ (∀ p ∈ fs.files.map Prod.fst, path_starts_with p source = true →
        (copy fs source target).1.readFile (rebase source.dropLast target p)
          = fs.readFile p) := by
  have hsf : fs.isFile source = false := hwf.dir_not_file hsd
  have H1' : ∀ a, a ≠ [] → a <+: target → fs.isFile a = false := fun a h1 h2 =>
    H1 a (mem_ancestorsOf.mpr ⟨h1, h2⟩)
  have H2f' : ∀ p, fs.isFile p = true →
      ¬(rebase source.dropLast target source <+: p) := by
    intro p hp hcon
    have h := H2f p (isFile_iff_mem.mp hp)
    rw [pws_iff.mpr hcon] at h
    exact Bool.true_eq_false.mp h
  have H2d' : ∀ d, fs.isDir d = true →
      ¬(rebase source.dropLast target source <+: d) := by
    intro d hd hcon
    have h := H2d d (isDir_iff_mem.mp hd)
    rw [pws_iff.mpr hcon] at h
    exact Bool.true_eq_false.mp h
  have hnodup : (walkEntries fs source).Nodup := by
    refine List.Nodup.append (List.Nodup.filter _ hwf.2.2.2.2)
      (List.Nodup.filter _ hwf.2.2.2.1) ?_
    intro a ha hb
    obtain ⟨had, _⟩ := List.mem_filter.mp ha
    obtain ⟨haf, _⟩ := List.mem_filter.mp hb
    have hfalse := (hwf.1 a haf).1
    have htrue : fs.dirs.contains a = true := contains_iff_mem.mpr had
    rw [hfalse] at htrue
    exact Bool.false_ne_true htrue
  have hents : ∀ e ∈ walkEntries fs source,
      source <+: e ∧ (fs.isDir e = true ∨ fs.isFile e = true) := by
    intro e he
    rcases List.mem_append.mp he with h | h
    · obtain ⟨hmem, hpws⟩ := List.mem_filter.mp h
      exact ⟨pws_iff.mp hpws, Or.inl (isDir_iff_mem.mpr hmem)⟩
    · obtain ⟨hmem, hpws⟩ := List.mem_filter.mp h
      exact ⟨pws_iff.mp hpws, Or.inr (isFile_iff_mem.mpr hmem)⟩
  obtain ⟨hok, _, _, _, heff⟩ := copyWalk_spec fs source target hwf hsd H1' H2f' H2d'
    (walkEntries fs source) fs hnodup hents (CopyInv.init fs source target)
  have hunfold : copy fs source target
      = copyWalk fs (walkEntries fs source) source.dropLast target := by
    simp [copy, hsf, htf, hsd]
  rw [hunfold]
  refine ⟨hok, ?_, ?_⟩
  · intro d hd hpws
    exact (heff d (List.mem_append.mpr (Or.inl (List.mem_filter.mpr ⟨hd, hpws⟩)))).1
      (isDir_iff_mem.mpr hd)
  · intro p hp hpws
    exact (heff p (List.mem_append.mpr (Or.inr (List.mem_filter.mpr ⟨hp, hpws⟩)))).2
      (isFile_iff_mem.mpr hp)

/-- Spec example filesystem for the C3 witness: directory `D` containing
`a/f` = "x", `b/g` = "y" and an empty directory `emptydir`. -/
def fsC3w : FS :=
  { files := [(["D", "a", "f"], "x"), (["D", "b", "g"], "y")],
    dirs := [["D"], ["D", "a"], ["D", "b"], ["D", "emptydir"]] }

/-- C3 witness: the amended theorem at the spec's example: copying `D` to
`T` yields `T/D/a/f` = "x", `T/D/b/g` = "y" and an empty directory
`T/D/emptydir`. -/
theorem C3_copy_directory_tree_witness :
    (copy fsC3w ["D"] ["T"]).2 = none
    ∧ (copy fsC3w ["D"] ["T"]).1.isDir ["T", "D", "emptydir"] = true
    ∧ (copy fsC3w ["D"] ["T"]).1.readFile ["T", "D", "a", "f"] = some "x"
    ∧ (copy fsC3w ["D"] ["T"]).1.readFile ["T", "D", "b", "g"] = some "y" := by
  obtain ⟨h1, h2, h3⟩ := C3_copy_directory_tree fsC3w ["D"] ["T"] (by decide) (by decide)
    (by decide) (by decide) (by decide) (by decide)
  refine ⟨h1, ?_, ?_, ?_⟩
  · exact h2 ["D", "emptydir"] (by decide) (by decide)
  · exact (h3 ["D", "a", "f"] (by decide) (by decide)).trans (by decide)
  · exact (h3 ["D", "b", "g"] (by decide) (by decide)).trans (by decide)
